import Mathlib

/-!
Verification development for the path-cleaner repository.

The Python sources `futility.py` and `pathcleaner.py` are shallowly embedded:
filenames are `List Char`, a directory's set of regular files is a
`List (List Char)`, the `os.path.isfile` oracle is a boolean predicate on
names, and the unbounded `while True` collision loop is run with an explicit
fuel argument (`none` meaning "still looping after that many iterations").
-/

instance {ε α : Type} [DecidableEq ε] [DecidableEq α] : DecidableEq (Except ε α)
  | .ok a, .ok b =>
      if h : a = b then .isTrue (by rw [h])
      else .isFalse (by intro hc; cases hc; exact h rfl)
  | .ok _, .error _ => .isFalse (by intro hc; cases hc)
  | .error _, .ok _ => .isFalse (by intro hc; cases hc)
  | .error e, .error f =>
      if h : e = f then .isTrue (by rw [h])
      else .isFalse (by intro hc; cases hc; exact h rfl)


namespace Futility

/-- Characters matched by the character class `[(_\d+)$]` appearing negated in
the stem-trimming regex `.*[^(_\d+)$]` of `check_filename` (futility.py:55). -/
def isClassChar (c : Char) : Bool :=
  c = '(' || c = '_' || c.isDigit || c = '+' || c = ')' || c = '$'

/-- Characters matched by `\w` in the regexes of futility.py (ASCII reading):
letters, digits and the underscore. -/
def wordChar (c : Char) : Bool :=
  c.isAlphanum || c = '_'

/-- `re.findall(r'(\.[\w]+)', filename)` (futility.py:24), with structural
fuel so that the scan evaluates by kernel reduction: move left to right; at a
dot followed by a word character, emit the dot and the maximal nonempty run
of word characters after it and resume just past the emitted match; otherwise
advance one position.  `findAllExtAux_irrel` shows the fuel is irrelevant
once it exceeds the length of the input. -/
def findAllExtAux : Nat → List Char → List (List Char)
  | 0, _ => []
  | fuel + 1, l =>
      match l with
      | [] => []
      | c :: rest =>
          if c = '.' then
            match rest with
            | [] => []
            | d :: rest' =>
                if wordChar d then
                  ('.' :: d :: rest'.takeWhile wordChar) ::
                    findAllExtAux fuel (rest'.dropWhile wordChar)
                else findAllExtAux fuel rest
          else findAllExtAux fuel rest

/-- All matches of `(\.[\w]+)` in the filename, in order. -/
def findAllExt (l : List Char) : List (List Char) :=
  findAllExtAux (l.length + 1) l

/-- `get_filename_extension` (futility.py:7-26): the last regex match if any,
else Python's implicit `None`. -/
def get_filename_extension (filename : List Char) : Option (List Char) :=
  (findAllExt filename).getLast?

/-- Exceptions that `check_filename` can raise (futility.py:54-55):
`file.split('.', 1)[1]` raises IndexError when the name has no dot, and
`re.search(r'.*[^(_\d+)$]', fh).group()` raises AttributeError when the
search returns no match (every stem character is in the class). -/
inductive FutilErr where
  | indexError
  | attributeError
deriving DecidableEq

/-- `file.split('.', 1)`: split at the first dot; `none` when there is no dot
(in which case taking index `[1]` raises IndexError). -/
def splitFirstDot : List Char → Option (List Char × List Char)
  | [] => none
  | c :: cs =>
      if c = '.' then some ([], cs)
      else (splitFirstDot cs).map (fun p => (c :: p.1, p.2))

/-- `re.search(r'.*[^(_\d+)$]', fh)` (futility.py:55): the match is the
longest prefix of `fh` whose final character is outside the class, i.e. `fh`
with its trailing class characters stripped; `none` when every character of
`fh` is in the class. -/
def trimStem (fh : List Char) : Option (List Char) :=
  match fh.reverse.dropWhile isClassChar with
  | [] => none
  | r => some r.reverse

/-- Decimal digit characters, as rendered by Python's f-string for a Nat. -/
def digitChar : Nat → Char
  | 0 => '0' | 1 => '1' | 2 => '2' | 3 => '3' | 4 => '4'
  | 5 => '5' | 6 => '6' | 7 => '7' | 8 => '8' | _ => '9'

/-- Decimal rendering of a natural number, with structural fuel so that the
definition evaluates by kernel reduction. -/
def natDigitsAux : Nat → Nat → List Char
  | 0, _ => []
  | fuel + 1, n =>
      if n < 10 then [digitChar n]
      else natDigitsAux fuel (n / 10) ++ [digitChar (n % 10)]

/-- Decimal rendering of `n`, as `f'..._{i}...'` renders the counter. -/
def natDigits (n : Nat) : List Char := natDigitsAux (n + 1) n

/-- One execution of the loop body of `check_filename` (futility.py:53-56)
with the already-incremented counter `i`: split the current name at its first
dot, strip trailing class characters from the stem, and rebuild the name as
`f'{fh_trimmed}_{i}.{ext}'`. -/
def renameStep (file : List Char) (i : Nat) : Except FutilErr (List Char) :=
  match splitFirstDot file with
  | none => .error .indexError
  | some (fh, ext) =>
      match trimStem fh with
      | none => .error .attributeError
      | some fhTrimmed => .ok (fhTrimmed ++ '_' :: (natDigits i ++ '.' :: ext))

/-- The `while True` loop of `check_filename` (futility.py:51-58) against an
`os.path.isfile` oracle, with fuel; `none` means the loop is still running
after `fuel` iterations. -/
def checkLoop (isfile : List Char → Bool) : Nat → List Char → Nat → Option (Except FutilErr (List Char))
  | 0, _, _ => none
  | fuel + 1, file, i =>
      if isfile file then
        match renameStep file (i + 1) with
        | .error e => some (.error e)
        | .ok f' => checkLoop isfile fuel f' (i + 1)
      else some (.ok file)

/-- `check_filename(file_to_check, target_folder)` (futility.py:29-59) where
`target` lists the regular files of the target folder.  Fuel
`target.length + 2` is always enough for the loop to finish (see
`checkLoop_mono` and the totality theorems below), so `none` is unreachable. -/
def check_filename (file_to_check : List Char) (target : List (List Char)) :
    Option (Except FutilErr (List Char)) :=
  checkLoop (fun nm => decide (nm ∈ target)) (target.length + 2) file_to_check 0

/-- The candidate name tried by the loop once the counter reaches `j`, for a
name whose stem trims to `t` and whose post-first-dot remainder is `ext`. -/
def cand (t ext : List Char) (j : Nat) : List Char :=
  t ++ '_' :: (natDigits j ++ '.' :: ext)

/-- A stem as produced by the trimming regex: dot-free and ending in a
character outside the class, so that re-trimming leaves it unchanged. -/
def GoodStem (t : List Char) : Prop :=
  '.' ∉ t ∧ ∃ t₀ c, t = t₀ ++ [c] ∧ isClassChar c = false

/-- Value of a decimal digit string, for the round-trip proof. -/
def digitsVal (l : List Char) : Nat :=
  l.foldl (fun a c => 10 * a + (c.toNat - 48)) 0

end Futility

namespace PathCleaner
open Futility

/-- State of a watched root: the names of the regular files directly in the
root, and for each subfolder name the regular files inside
`root/<subfolder>`. -/
structure DirState where
  rootFiles : List (List Char)
  sub : List Char → List (List Char)

/-- Python exceptions that can escape one iteration of a relocation pass:
an exception raised inside `futility.check_filename`, the modelling artifact
for collision-loop fuel exhaustion (provably unreachable), and an `OSError`
from `os.rename`. -/
inductive PassErr where
  | futilErr (e : FutilErr)
  | fuelOut
  | moveFail (src dst : List Char)
deriving DecidableEq

/-- Run a per-file step over the `os.listdir` snapshot.  An uncaught
exception aborts the remainder of the pass, exactly as an exception
propagating out of the Python `for` loop would. -/
def runSteps (step : DirState → List Char → DirState × Option PassErr) :
    DirState → List (List Char) → DirState × Option PassErr
  | st, [] => (st, none)
  | st, f :: fs =>
      match step st f with
      | (st', none) => runSteps step st' fs
      | (st', some e) => (st', some e)

/-- Body of the `for` loop of `sort_by_filetype` (pathcleaner.py:122-142) for
one listed name.  `table` is the mapping loaded from `file_extensions.json`;
`moveOk src dst` tells whether `os.rename` of `src` to subfolder entry `dst`
succeeds.  A missing extension or an extension absent from the table raises
`KeyError`, which the code catches and turns into a skip; a `file_type` of
`Other` is skipped; otherwise the name is collision-checked against the
destination subfolder and renamed into it. -/
def sortStep (table : List Char → Option (List Char))
    (moveOk : List Char → List Char → Bool)
    (st : DirState) (file : List Char) : DirState × Option PassErr :=
  if file ∈ st.rootFiles then
    match get_filename_extension file with
    | none => (st, none)
    | some ext =>
        match table ext with
        | none => (st, none)
        | some ftype =>
            if ftype = ("Other".data) then (st, none)
            else
              match check_filename file (st.sub ftype) with
              | none => (st, some .fuelOut)
              | some (.error e) => (st, some (.futilErr e))
              | some (.ok checked) =>
                  if moveOk file checked then
                    (DirState.mk (st.rootFiles.erase file)
                        (fun d => if d = ftype then st.sub ftype ++ [checked]
                                  else st.sub d),
                      none)
                  else (st, some (.moveFail file checked))
  else (st, none)

/-- One pass of `sort_by_filetype` over the snapshot of the root listing.
`os.listdir` also returns subdirectory names, but the loop's
`os.path.isfile` check skips those, so the modelled listing carries the
regular files only. -/
def sort_by_filetype (table : List Char → Option (List Char))
    (moveOk : List Char → List Char → Bool) (st : DirState) :
    DirState × Option PassErr :=
  runSteps (sortStep table moveOk) st st.rootFiles

/-- Whitespace characters matched by Python's `\s` (ASCII reading). -/
def isWs (c : Char) : Bool :=
  c = ' ' || c = '\t' || c = '\n' || c = '\r' || c = '\x0b' || c = '\x0c'

/-- Consume an exact literal from the front of the input. -/
def dropLit : List Char → List Char → Option (List Char)
  | [], s => some s
  | _ :: _, [] => none
  | c :: cs, d :: s => if c = d then dropLit cs s else none

/-- Consume one whitespace character. -/
def dropOneWs : List Char → Option (List Char)
  | [] => none
  | c :: s => if isWs c then some s else none

/-- Consume `\d+`: one digit, then the maximal run of further digits.  The
pattern element after each `\d+` in the screengrab regex is `\.` or `\s`, so
the greedy run never needs to backtrack. -/
def dropDigits : List Char → Option (List Char)
  | [] => none
  | c :: rest => if c.isDigit then some (rest.dropWhile Char.isDigit) else none

/-- Consume `(\d+-*)+`: equivalently one digit followed by the maximal run of
digits and dashes.  The next pattern element is `\s`, which is neither, so
greedy matching is deterministic. -/
def dropDigitsDashes : List Char → Option (List Char)
  | [] => none
  | c :: rest =>
      if c.isDigit then some (rest.dropWhile (fun x => x.isDigit || x = '-'))
      else none

/-- Consume one duplicate marker `\s\(\d\)` such as ` (2)`. -/
def dropOneMark : List Char → Option (List Char)
  | w :: c1 :: d :: c2 :: rest =>
      if isWs w && (c1 = '(' && (d.isDigit && c2 = ')')) then some rest else none
  | _ => none

/-- Consume `(\s\(\d\))*`: the maximal sequence of duplicate markers.  The
next pattern element is `\.`, which cannot begin a marker, so greedy matching
is deterministic.  Structural fuel; a marker consumes four characters, so
`s.length` is always enough. -/
def dropMarksAux : Nat → List Char → List Char
  | 0, s => s
  | fuel + 1, s =>
      match dropOneMark s with
      | some r => dropMarksAux fuel r
      | none => s

def dropMarks (s : List Char) : List Char := dropMarksAux s.length s

/-- Consume `(Screenshot|Screen\sRecording)`.  The alternatives differ at
their seventh character (`s` versus whitespace), so the regex engine's
left-first alternation is deterministic here. -/
def dropHead (s : List Char) : Option (List Char) :=
  match dropLit ("Screenshot".data) s with
  | some r => some r
  | none =>
      ((dropLit ("Screen".data) s).bind dropOneWs).bind (dropLit ("Recording".data))

/-- Consume `((\d+\.){2}\d+)`, the dotted time stamp. -/
def dropTime (s : List Char) : Option (List Char) :=
  (dropDigits s).bind fun r1 =>
    (dropLit (".".data) r1).bind fun r2 =>
      (dropDigits r2).bind fun r3 =>
        (dropLit (".".data) r3).bind fun r4 => dropDigits r4

/-- Everything of the screengrab regex before its final `(\.(mov|png))`
group, matched at the current position. -/
def grabTail (s : List Char) : Option (List Char) :=
  (dropHead s).bind fun r1 =>
    (dropOneWs r1).bind fun r2 =>
      (dropDigitsDashes r2).bind fun r3 =>
        (dropOneWs r3).bind fun r4 =>
          (dropLit ("at".data) r4).bind fun r5 =>
            (dropOneWs r5).bind fun r6 =>
              (dropTime r6).bind fun r7 => some (dropMarks r7)

/-- The final `(\.(mov|png))` group (not anchored at the end of the name). -/
def tailExt (s : List Char) : Bool :=
  (dropLit (".mov".data) s).isSome || (dropLit (".png".data) s).isSome

/-- Match of the compiled pattern `apple_screengrab_filename`
(pathcleaner.py:155-158) at the current position:
`(Screenshot|Screen\sRecording)\s(\d+-*)+\sat\s((\d+\.){2}\d+)(\s\(\d\))*(\.(mov|png))`. -/
def matchGrabAt (s : List Char) : Bool :=
  match grabTail s with
  | some r => tailExt r
  | none => false

/-- `apple_screengrab_filename.search(file)`: try the pattern at every
position. -/
def grabSearch : List Char → Bool
  | [] => matchGrabAt []
  | c :: t => matchGrabAt (c :: t) || grabSearch t

/-- Python f-string rendering of the optional extension in
`f'Screengrab_{datetime_now}_captured{extension}'` (pathcleaner.py:167):
`None` renders as the text `None` (unreachable for matching names). -/
def extRepr : Option (List Char) → List Char
  | some e => e
  | none => "None".data

/-- The candidate name `f'Screengrab_{datetime_now}_captured{extension}'`
computed for a matching file, where `now` is the formatted current time. -/
def screengrabName (now ext : List Char) : List Char :=
  ("Screengrab_".data) ++ now ++ ("_captured".data) ++ ext

/-- Body of the `for` loop of `sort_screenshots` (pathcleaner.py:160-176) for
one listed name: on an isfile-and-pattern match, build the timestamped
candidate name, collision-check it against `root/Screenshots`, and rename the
file there. -/
def screenStep (now : List Char) (moveOk : List Char → List Char → Bool)
    (st : DirState) (file : List Char) : DirState × Option PassErr :=
  let m := grabSearch file
  if decide (file ∈ st.rootFiles) && m then
    let newName := screengrabName now (extRepr (get_filename_extension file))
    match check_filename newName (st.sub ("Screenshots".data)) with
    | none => (st, some .fuelOut)
    | some (.error e) => (st, some (.futilErr e))
    | some (.ok checked) =>
        if moveOk file checked then
          (DirState.mk (st.rootFiles.erase file)
              (fun d => if d = ("Screenshots".data)
                        then st.sub ("Screenshots".data) ++ [checked]
                        else st.sub d),
            none)
        else (st, some (.moveFail file checked))
  else (st, none)

/-- One pass of `sort_screenshots` over the snapshot of the root listing. -/
def sort_screenshots (now : List Char) (moveOk : List Char → List Char → Bool)
    (st : DirState) : DirState × Option PassErr :=
  runSteps (screenStep now moveOk) st st.rootFiles

/-- The exception `os.mkdir` raises when something already occupies the
path — a regular file as much as a directory. -/
inductive MkdirErr where
  | fileExistsError (name : List Char)
deriving DecidableEq

/-- `make_subdirectories` (pathcleaner.py:79-100) acting on the root's
filesystem view: `rootEntries` are the names of the entries existing
directly under the root (of any kind) and `rootDirs` the subset that are
directories.  For each requested subfolder, if `root/<subdir>` is not a
directory, `os.mkdir` it: the call creates the directory when nothing
occupies that path, and raises `FileExistsError` when a non-directory entry
does (an already existing directory is skipped by the `isdir` check, so the
call never errors on one).  The exception propagates, aborting the remaining
subfolders; on success the updated `(entries, dirs)` view is returned. -/
def make_subdirectories (rootEntries rootDirs : List (List Char)) :
    List (List Char) → Except MkdirErr (List (List Char) × List (List Char))
  | [] => .ok (rootEntries, rootDirs)
  | sd :: rest =>
      if sd ∈ rootDirs then make_subdirectories rootEntries rootDirs rest
      else if sd ∈ rootEntries then .error (.fileExistsError sd)
      else make_subdirectories (rootEntries ++ [sd]) (rootDirs ++ [sd]) rest

/-- Filesystem view seen by `EventHandler.on_modified` (pathcleaner.py:47-76):
the names listed in the watched root, the subset of names that are
directories under the root, and which bare names are directories relative to
the process working directory — the code passes the bare name to
`os.path.isdir(dir)`, so that check resolves against the CWD, not the root. -/
structure WatchState where
  rootEntries : List (List Char)
  rootDirs : List (List Char)
  cwdIsDir : List Char → Bool

/-- The subfolder re-check of `on_modified` (pathcleaner.py:64-75): the
handler lists the root, keeps the names that are directories relative to the
CWD, and calls `make_subdirectories` only when some required name is missing
from that list.  `.ok dirs` means the cleanup function then runs with `dirs`
the directories existing under the root; `.error e` means the re-creation
raised and the cleanup never runs. -/
def on_modified_dirs (st : WatchState) (subfolders : List (List Char)) :
    Except MkdirErr (List (List Char)) :=
  let dirs_in_cwd := st.rootEntries.filter st.cwdIsDir
  if subfolders.all (fun d => decide (d ∈ dirs_in_cwd)) then .ok st.rootDirs
  else (make_subdirectories st.rootEntries st.rootDirs subfolders).map
    (fun p => p.2)

/-- The shape of a name under which a matching `file` lands in `Screenshots`:
the timestamped candidate itself, or — when the candidate collides — the
candidate with its stem trimmed and a counter suffix inserted before the
extension. -/
def movedName (now file nm : List Char) : Prop :=
  nm = screengrabName now (extRepr (get_filename_extension file)) ∨
  ∃ fh ext t j,
    splitFirstDot (screengrabName now (extRepr (get_filename_extension file))) =
      some (fh, ext) ∧
    trimStem fh = some t ∧ 1 ≤ j ∧ nm = cand t ext j

end PathCleaner

open Futility PathCleaner

/-- Extension table of spec Scenario 1:
`{".png": "Images", ".txt": "Docs", ".tmp": "Other"}`. -/
def scenarioTable : List Char → Option (List Char) := fun e =>
  if e = (".png".data) then some ("Images".data)
  else if e = (".txt".data) then some ("Docs".data)
  else if e = (".tmp".data) then some ("Other".data)
  else none

/-- Scenario 1's root: files `a.png`, `b.txt`, `c.tmp`, `d.unknown`, with all
destination subfolders empty. -/
def scenarioRoot : DirState :=
  DirState.mk [("a.png".data), ("b.txt".data), ("c.tmp".data), ("d.unknown".data)]
    (fun _ => [])

/-- A root with two classifiable files, for the move-failure scenario. -/
def twoFileRoot : DirState :=
  DirState.mk [("a.png".data), ("b.txt".data)] (fun _ => [])

/-- A root holding one screenshot, with `Screenshots` already containing the
name the screenshot pass will want to use. -/
def grabRoot : DirState :=
  DirState.mk [("Screenshot 2023-01-01 at 10.30.00.png".data)]
    (fun d => if d = ("Screenshots".data)
              then [("Screengrab_12-10-2025_14-30-00_captured.png".data)]
              else [])

/-- A root holding one screenshot and an empty `Screenshots` subfolder. -/
def singleShotRoot : DirState :=
  DirState.mk [("Screenshot 2023-01-01 at 10.30.00.png".data)] (fun _ => [])

/-- Filesystem view in which the watched root holds a non-directory entry
named `Screenshots`, no directory `Screenshots` exists under the root, and
the process working directory happens to contain a directory named
`Screenshots`. -/
def watchView : WatchState :=
  WatchState.mk [("Screenshots".data)] [] (fun nm => decide (nm = ("Screenshots".data)))

theorem dropWhile_length_le {α} (p : α → Bool) :
    ∀ l : List α, (List.dropWhile p l).length ≤ l.length := by
  intro l
  induction l with
  | nil => simp [List.dropWhile]
  | cons c cs ih =>
      simp only [List.dropWhile]
      split
      · exact ih.trans (Nat.le_succ _)
      · exact le_refl _

namespace Futility

/-! ### Structure lemmas for the collision resolver -/

theorem digitChar_val : ∀ d, d < 10 → (digitChar d).toNat - 48 = d := by decide

theorem digitChar_isDigit (d : Nat) : (digitChar d).isDigit = true := by
  unfold digitChar
  split <;> decide

theorem digitChar_ne_dot (d : Nat) : digitChar d ≠ '.' := by
  unfold digitChar
  split <;> decide

theorem natDigitsAux_irrel :
    ∀ f₁ f₂ n, n < f₁ → n < f₂ → natDigitsAux f₁ n = natDigitsAux f₂ n := by
  intro f₁
  induction f₁ with
  | zero => intro f₂ n h1 _; omega
  | succ k ih =>
      intro f₂ n h1 h2
      cases f₂ with
      | zero => omega
      | succ m =>
          simp only [natDigitsAux]
          by_cases hn : n < 10
          · simp [hn]
          · have hdiv : n / 10 < n := Nat.div_lt_self (by omega) (by omega)
            simp only [hn, if_false]
            rw [ih m (n / 10) (by omega) (by omega)]

theorem natDigits_eq (n : Nat) :
    natDigits n =
      if n < 10 then [digitChar n] else natDigits (n / 10) ++ [digitChar (n % 10)] := by
  by_cases hn : n < 10
  · simp [natDigits, natDigitsAux, hn]
  · have h1 : natDigits n = natDigitsAux n (n / 10) ++ [digitChar (n % 10)] := by
      show natDigitsAux (n + 1) n = _
      simp [natDigitsAux, hn]
    have h2 : natDigitsAux n (n / 10) = natDigits (n / 10) :=
      natDigitsAux_irrel n (n / 10 + 1) (n / 10)
        (by have := Nat.div_lt_self (show 0 < n by omega) (show 1 < 10 by omega); omega)
        (by omega)
    rw [h1, h2]
    simp [hn]

theorem digitsVal_natDigits : ∀ n, digitsVal (natDigits n) = n := by
  intro n
  induction n using Nat.strong_induction_on with
  | _ n ih =>
      rw [natDigits_eq]
      by_cases hn : n < 10
      · simp only [hn, if_true]
        simp [digitsVal, digitChar_val n hn]
      · have hdiv : n / 10 < n := Nat.div_lt_self (by omega) (by omega)
        simp only [hn, if_false]
        have hmod : n % 10 < 10 := Nat.mod_lt _ (by omega)
        simp only [digitsVal, List.foldl_append, List.foldl_cons, List.foldl_nil]
        have hv := ih (n / 10) hdiv
        simp only [digitsVal] at hv
        rw [hv, digitChar_val (n % 10) hmod]
        omega

theorem natDigits_inj {m n : Nat} (h : natDigits m = natDigits n) : m = n := by
  have hm := digitsVal_natDigits m
  rw [h, digitsVal_natDigits] at hm
  omega

theorem natDigits_isDigit : ∀ n, ∀ c ∈ natDigits n, c.isDigit = true := by
  intro n
  induction n using Nat.strong_induction_on with
  | _ n ih =>
      rw [natDigits_eq]
      by_cases hn : n < 10
      · simp only [hn, if_true, List.mem_singleton]
        rintro c rfl
        exact digitChar_isDigit n
      · have hdiv : n / 10 < n := Nat.div_lt_self (by omega) (by omega)
        simp only [hn, if_false, List.mem_append, List.mem_singleton]
        rintro c (hc | rfl)
        · exact ih (n / 10) hdiv c hc
        · exact digitChar_isDigit (n % 10)

theorem natDigits_no_dot (n : Nat) : '.' ∉ natDigits n := by
  intro h
  have := natDigits_isDigit n '.' h
  simp [Char.isDigit] at this

theorem splitFirstDot_eq_some :
    ∀ {s a b : List Char}, splitFirstDot s = some (a, b) →
      s = a ++ '.' :: b ∧ '.' ∉ a := by
  intro s
  induction s with
  | nil => intro a b h; simp [splitFirstDot] at h
  | cons c cs ih =>
      intro a b h
      by_cases hc : c = '.'
      · subst hc
        simp [splitFirstDot] at h
        obtain ⟨rfl, rfl⟩ := h
        simp
      · simp only [splitFirstDot, if_neg hc, Option.map_eq_some'] at h
        obtain ⟨p, hp, heq⟩ := h
        obtain ⟨h1, h2⟩ := ih hp
        cases heq
        constructor
        · simp [h1]
        · simp only [List.mem_cons, not_or]
          exact ⟨fun hx => hc hx.symm, h2⟩

theorem splitFirstDot_append_no_dot {a : List Char} (b : List Char) (ha : '.' ∉ a) :
    splitFirstDot (a ++ b) = (splitFirstDot b).map (fun p => (a ++ p.1, p.2)) := by
  induction a with
  | nil =>
      simp only [List.nil_append]
      cases splitFirstDot b <;> simp
  | cons c cs ih =>
      have hc : ¬ c = '.' := by
        intro hx
        exact ha (by simp [hx])
      have ha' : '.' ∉ cs := fun hx => ha (by simp [hx])
      rw [List.cons_append]
      simp only [splitFirstDot, if_neg hc]
      rw [ih ha']
      cases splitFirstDot b <;> simp

theorem splitFirstDot_exact {a : List Char} (b : List Char) (ha : '.' ∉ a) :
    splitFirstDot (a ++ '.' :: b) = some (a, b) := by
  rw [splitFirstDot_append_no_dot ('.' :: b) ha]
  simp [splitFirstDot]

theorem splitFirstDot_eq_none_iff {s : List Char} :
    splitFirstDot s = none ↔ '.' ∉ s := by
  induction s with
  | nil => simp [splitFirstDot]
  | cons c cs ih =>
      by_cases hc : c = '.'
      · subst hc; simp [splitFirstDot]
      · simp only [splitFirstDot, if_neg hc, Option.map_eq_none', List.mem_cons, not_or, ih]
        constructor
        · intro h; exact ⟨fun hx => hc hx.symm, h⟩
        · intro h; exact h.2

theorem dropWhile_append_of_all {α} {p : α → Bool} {a : List α} (b : List α)
    (ha : ∀ x ∈ a, p x = true) :
    List.dropWhile p (a ++ b) = List.dropWhile p b := by
  induction a with
  | nil => simp
  | cons c cs ih =>
      have hc : p c = true := ha c (by simp)
      simp only [List.cons_append, List.dropWhile, hc]
      exact ih (fun x hx => ha x (by simp [hx]))

theorem dropWhile_cons_of_false {α} {p : α → Bool} {c : α} (l : List α)
    (hc : p c = false) : List.dropWhile p (c :: l) = c :: l := by
  simp [List.dropWhile, hc]

theorem dropWhile_decomp {α} {p : α → Bool} :
    ∀ {l r : List α}, List.dropWhile p l = r →
      ∃ pre, l = pre ++ r ∧ ∀ x ∈ pre, p x = true := by
  intro l
  induction l with
  | nil => intro r h; exact ⟨[], by simp [List.dropWhile] at h; simp [h.symm], by simp⟩
  | cons c cs ih =>
      intro r h
      by_cases hc : p c = true
      · simp only [List.dropWhile, hc] at h
        obtain ⟨pre, hpre, hall⟩ := ih h
        refine ⟨c :: pre, by simp [hpre], ?_⟩
        intro x hx
        rcases List.mem_cons.mp hx with rfl | hx
        · exact hc
        · exact hall x hx
      · rw [dropWhile_cons_of_false cs (by simpa using hc)] at h
        exact ⟨[], by simp [h.symm], by simp⟩

theorem dropWhile_head_false {α} {p : α → Bool} :
    ∀ {l r : List α} {c : α}, List.dropWhile p l = c :: r → p c = false := by
  intro l
  induction l with
  | nil => intro r c h; simp [List.dropWhile] at h
  | cons x xs ih =>
      intro r c h
      by_cases hx : p x = true
      · simp only [List.dropWhile, hx] at h
        exact ih h
      · rw [dropWhile_cons_of_false xs (by simpa using hx)] at h
        cases h
        simpa using hx

theorem trimStem_append {t₀ r : List Char} {c : Char}
    (hc : isClassChar c = false) (hr : ∀ x ∈ r, isClassChar x = true) :
    trimStem ((t₀ ++ [c]) ++ r) = some (t₀ ++ [c]) := by
  unfold trimStem
  have h1 : ((t₀ ++ [c]) ++ r).reverse = r.reverse ++ (c :: t₀.reverse) := by
    simp
  rw [h1, dropWhile_append_of_all (c :: t₀.reverse)
        (fun x hx => hr x (List.mem_reverse.mp hx)),
      dropWhile_cons_of_false _ hc]
  simp

theorem trimStem_eq_none_iff {fh : List Char} :
    trimStem fh = none ↔ ∀ c ∈ fh, isClassChar c = true := by
  constructor
  · intro h c hc
    unfold trimStem at h
    rcases hd : fh.reverse.dropWhile isClassChar with _ | ⟨x, xs⟩
    · rw [List.dropWhile_eq_nil_iff] at hd
      exact hd c (List.mem_reverse.mpr hc)
    · rw [hd] at h
      simp at h
  · intro h
    unfold trimStem
    have hd : fh.reverse.dropWhile isClassChar = [] := by
      rw [List.dropWhile_eq_nil_iff]
      exact fun x hx => h x (List.mem_reverse.mp hx)
    rw [hd]

theorem trimStem_spec {fh t : List Char} (h : trimStem fh = some t) :
    ∃ t₀ c r, t = t₀ ++ [c] ∧ isClassChar c = false ∧ fh = t ++ r ∧
      ∀ x ∈ r, isClassChar x = true := by
  unfold trimStem at h
  rcases hd : fh.reverse.dropWhile isClassChar with _ | ⟨x, xs⟩
  · rw [hd] at h; simp at h
  · rw [hd] at h
    simp only [Option.some_inj] at h
    have hx : isClassChar x = false := dropWhile_head_false hd
    obtain ⟨pre, hpre, hall⟩ := dropWhile_decomp hd
    have hfh : fh = (pre ++ x :: xs).reverse := by
      rw [← hpre, List.reverse_reverse]
    refine ⟨xs.reverse, x, pre.reverse, ?_, hx, ?_, ?_⟩
    · rw [← h]; simp
    · rw [hfh, ← h]
      exact List.reverse_append _ _
    · intro y hy
      exact hall y (List.mem_reverse.mp hy)
/-! ### Behaviour of the collision loop -/

theorem isClassChar_of_isDigit {c : Char} (h : c.isDigit = true) :
    isClassChar c = true := by
  simp [isClassChar, h]


theorem cand_assoc (t ext : List Char) (j : Nat) :
    cand t ext j = (t ++ '_' :: natDigits j) ++ '.' :: ext := by
  simp [cand]

theorem no_dot_stem_digits {t : List Char} (j : Nat) (ht : '.' ∉ t) :
    '.' ∉ t ++ '_' :: natDigits j := by
  intro h
  rcases List.mem_append.mp h with h | h
  · exact ht h
  · rcases List.mem_cons.mp h with h | h
    · exact absurd h (by decide)
    · exact natDigits_no_dot j h

theorem splitFirstDot_cand {t : List Char} (ext : List Char) (j : Nat)
    (ht : '.' ∉ t) :
    splitFirstDot (cand t ext j) = some (t ++ '_' :: natDigits j, ext) := by
  rw [cand_assoc]
  exact splitFirstDot_exact _ (no_dot_stem_digits j ht)

theorem trimStem_cand {t₀ : List Char} {c : Char} (hc : isClassChar c = false)
    (j : Nat) :
    trimStem ((t₀ ++ [c]) ++ '_' :: natDigits j) = some (t₀ ++ [c]) := by
  apply trimStem_append hc
  intro x hx
  rcases List.mem_cons.mp hx with rfl | hx
  · decide
  · exact isClassChar_of_isDigit (natDigits_isDigit j x hx)

theorem trimStem_good {t : List Char}
    (hd : ∃ t₀ c, t = t₀ ++ [c] ∧ isClassChar c = false) (j : Nat) :
    trimStem (t ++ '_' :: natDigits j) = some t := by
  obtain ⟨t₀, c, rfl, hc⟩ := hd
  exact trimStem_cand hc j

theorem renameStep_cand {t : List Char} (ext : List Char) {j i : Nat}
    (hg : GoodStem t) :
    renameStep (cand t ext j) i = .ok (cand t ext i) := by
  obtain ⟨ht, hd⟩ := hg
  have h1 := splitFirstDot_cand ext j ht
  have h3 := trimStem_good hd j
  simp only [cand] at h1 ⊢
  simp [renameStep, h1, h3]

theorem cand_inj {t ext : List Char} {j k : Nat} (ht : '.' ∉ t)
    (h : cand t ext j = cand t ext k) : j = k := by
  have e1 := splitFirstDot_cand ext j ht
  have e2 := splitFirstDot_cand ext k ht
  rw [h, e2] at e1
  simp only [Option.some_inj, Prod.mk.injEq] at e1
  have h3 : natDigits j = natDigits k := by
    have h4 := e1.1
    rw [List.append_cancel_left_eq] at h4
    exact (List.cons.inj h4).2.symm
  exact natDigits_inj h3

theorem checkLoop_mono {isf : List Char → Bool} :
    ∀ {f f' : Nat} {file : List Char} {i : Nat} {r},
      f ≤ f' → checkLoop isf f file i = some r → checkLoop isf f' file i = some r := by
  intro f
  induction f with
  | zero => intro f' file i r _ h; simp [checkLoop] at h
  | succ k ih =>
      intro f' file i r hle h
      cases f' with
      | zero => omega
      | succ m =>
          simp only [checkLoop] at h ⊢
          by_cases hf : isf file
          · rw [if_pos hf] at h ⊢
            cases hrs : renameStep file (i + 1) with
            | error e => rw [hrs] at h; exact h
            | ok f2 => rw [hrs] at h; exact ih (by omega) h
          · rw [if_neg hf] at h ⊢
            exact h

theorem checkLoop_first_free {dir : List (List Char)} {t ext : List Char}
    (hg : GoodStem t) {j : Nat}
    (hj : cand t ext j ∉ dir) :
    ∀ fuel i, i ≤ j → j < i + fuel →
      (∀ k, i ≤ k → k < j → cand t ext k ∈ dir) →
      checkLoop (fun nm => decide (nm ∈ dir)) fuel (cand t ext i) i =
        some (.ok (cand t ext j)) := by
  intro fuel
  induction fuel with
  | zero => intro i h1 h2 _; omega
  | succ f ih =>
      intro i h1 h2 hk
      simp only [checkLoop]
      by_cases hmem : cand t ext i ∈ dir
      · have hij : i < j := by
          rcases Nat.lt_or_ge i j with h | h
          · exact h
          · have : i = j := by omega
            subst this
            exact absurd hmem hj
        rw [if_pos (by simpa using hmem)]
        rw [renameStep_cand ext hg]
        exact ih (i + 1) (by omega) (by omega) (fun k hk1 hk2 => hk k (by omega) hk2)
      · have hij : i = j := by
          by_contra hne
          exact hmem (hk i (le_refl i) (by omega))
        subst hij
        rw [if_neg (by simpa using hmem)]

theorem cand_free_exists (dir : List (List Char)) {t : List Char} (ext : List Char)
    (ht : '.' ∉ t) :
    ∃ j, 1 ≤ j ∧ j ≤ dir.length + 1 ∧ cand t ext j ∉ dir := by
  by_contra h
  push_neg at h
  have hinj : Function.Injective (fun i : Fin (dir.length + 1) => cand t ext (i.1 + 1)) := by
    intro a b hab
    simp only at hab
    have := cand_inj ht hab
    exact Fin.ext (by omega)
  have hsub : Finset.univ.image (fun i : Fin (dir.length + 1) => cand t ext (i.1 + 1)) ⊆
      dir.toFinset := by
    intro x hx
    simp only [Finset.mem_image, Finset.mem_univ, true_and] at hx
    obtain ⟨i, rfl⟩ := hx
    exact List.mem_toFinset.mpr (h (i.1 + 1) (by omega) (by omega))
  have hcard := Finset.card_le_card hsub
  rw [Finset.card_image_of_injective _ hinj, Finset.card_univ, Fintype.card_fin] at hcard
  have hlen := dir.toFinset_card_le
  omega

theorem check_filename_not_mem {file : List Char} {dir : List (List Char)}
    (h : file ∉ dir) : check_filename file dir = some (.ok file) := by
  show checkLoop _ (dir.length + 1 + 1) file 0 = _
  simp only [checkLoop]
  rw [if_neg (by simpa using h)]

/-- Master lemma for a colliding name: the loop strips the stem to `t`, then
returns `cand t ext j` for the least `j ≥ 1` whose candidate is free. -/
theorem check_filename_collision {file fh ext t : List Char} {dir : List (List Char)}
    (hs : splitFirstDot file = some (fh, ext)) (htk : trimStem fh = some t)
    (hmem : file ∈ dir) :
    ∃ j, 1 ≤ j ∧ cand t ext j ∉ dir ∧
      (∀ k, 1 ≤ k → k < j → cand t ext k ∈ dir) ∧
      check_filename file dir = some (.ok (cand t ext j)) := by
  obtain ⟨t₀, c, r, ht, hc, hfh, hr⟩ := trimStem_spec htk
  obtain ⟨hfile, hnd⟩ := splitFirstDot_eq_some hs
  have hdt : '.' ∉ t := by
    intro hx
    exact hnd (by rw [hfh]; exact List.mem_append_left r hx)
  have hg : GoodStem t := ⟨hdt, t₀, c, ht, hc⟩
  obtain ⟨j₀, hj01, hj02, hj03⟩ := cand_free_exists dir ext hdt
  have hP : ∃ j, 1 ≤ j ∧ cand t ext j ∉ dir := ⟨j₀, hj01, hj03⟩
  have hPj := Nat.find_spec hP
  have hjle : Nat.find hP ≤ j₀ := Nat.find_min' hP ⟨hj01, hj03⟩
  refine ⟨Nat.find hP, hPj.1, hPj.2, ?_, ?_⟩
  · intro k h1k hkj
    by_contra hknot
    exact Nat.find_min hP hkj ⟨h1k, hknot⟩
  · show checkLoop _ (dir.length + 1 + 1) file 0 = _
    simp only [checkLoop]
    rw [if_pos (by simpa using hmem)]
    have h1 : renameStep file (0 + 1) = .ok (cand t ext 1) := by
      simp [renameStep, hs, htk, cand]
    rw [h1]
    exact checkLoop_first_free hg hPj.2 (dir.length + 1) 1 hPj.1 (by omega)
      (fun k hk1 hk2 => by
        by_contra hknot
        exact Nat.find_min hP hk2 ⟨hk1, hknot⟩)

/-! ### Behaviour of the extension scanner -/

theorem takeWhile_all {α} {p : α → Bool} :
    ∀ {l : List α}, (∀ x ∈ l, p x = true) → List.takeWhile p l = l := by
  intro l
  induction l with
  | nil => intro _; rfl
  | cons c cs ih =>
      intro h
      have hc : p c = true := h c (by simp)
      simp only [List.takeWhile, hc]
      rw [ih (fun x hx => h x (by simp [hx]))]

theorem dropWhile_all {α} {p : α → Bool} {l : List α}
    (h : ∀ x ∈ l, p x = true) : List.dropWhile p l = [] := by
  rw [List.dropWhile_eq_nil_iff]
  intro x hx
  exact h x hx

theorem dropWhile_append_not_all {α} {p : α → Bool} :
    ∀ {a : List α} (b : List α), (¬ ∀ x ∈ a, p x = true) →
      List.dropWhile p (a ++ b) = List.dropWhile p a ++ b := by
  intro a
  induction a with
  | nil => intro b h; exact absurd (by simp) h
  | cons c cs ih =>
      intro b h
      by_cases hc : p c = true
      · have h' : ¬ ∀ x ∈ cs, p x = true := by
          intro hall
          exact h (fun x hx => by
            rcases List.mem_cons.mp hx with rfl | hx
            · exact hc
            · exact hall x hx)
        simp only [List.cons_append, List.dropWhile, hc]
        exact ih b h'
      · have hc' : p c = false := by simpa using hc
        rw [List.cons_append, dropWhile_cons_of_false _ hc', dropWhile_cons_of_false _ hc']
        rfl

theorem mem_takeWhile {α} {p : α → Bool} :
    ∀ {l : List α} {x : α}, x ∈ List.takeWhile p l → p x = true := by
  intro l
  induction l with
  | nil => intro x h; simp [List.takeWhile] at h
  | cons c cs ih =>
      intro x h
      by_cases hc : p c = true
      · simp only [List.takeWhile, hc] at h
        rcases List.mem_cons.mp h with rfl | h
        · exact hc
        · exact ih h
      · have hc' : p c = false := by simpa using hc
        simp [List.takeWhile, hc'] at h

theorem getLast?_append_single {α} : ∀ (l : List α) (a : α), (l ++ [a]).getLast? = some a := by
  intro l a
  induction l with
  | nil => rfl
  | cons c cs ih =>
      rw [List.cons_append, List.getLast?_cons, ih]
      cases cs <;> simp_all [List.getLast?_cons]

theorem getLast?_mem {α} : ∀ {l : List α} {a : α}, l.getLast? = some a → a ∈ l := by
  intro l
  induction l with
  | nil => intro a h; simp at h
  | cons c cs ih =>
      intro a h
      cases hcs : cs with
      | nil => subst hcs; simp_all
      | cons d ds =>
          subst hcs
          rw [List.getLast?_cons_cons] at h
          exact List.mem_cons_of_mem c (ih h)

theorem findAllExtAux_dot_cons (fuel : Nat) (d : Char) (rest : List Char) :
    findAllExtAux (fuel + 1) ('.' :: d :: rest) =
      if wordChar d = true then
        ('.' :: d :: rest.takeWhile wordChar) ::
          findAllExtAux fuel (rest.dropWhile wordChar)
      else findAllExtAux fuel (d :: rest) := rfl

theorem findAllExtAux_irrel :
    ∀ f₁, ∀ (l : List Char) (f₂ : Nat), l.length < f₁ → l.length < f₂ →
      findAllExtAux f₁ l = findAllExtAux f₂ l := by
  intro f₁
  induction f₁ with
  | zero => intro l f₂ h1 _; omega
  | succ n ih =>
      intro l f₂ h1 h2
      cases f₂ with
      | zero => omega
      | succ m =>
          cases l with
          | nil => rfl
          | cons c cs =>
              by_cases hc : c = '.'
              · subst hc
                cases cs with
                | nil => rfl
                | cons d rest =>
                    simp only [List.length_cons] at h1 h2
                    rw [findAllExtAux_dot_cons, findAllExtAux_dot_cons]
                    by_cases hw : wordChar d = true
                    · rw [if_pos hw, if_pos hw]
                      have hd := dropWhile_length_le wordChar rest
                      rw [ih (rest.dropWhile wordChar) m (by omega) (by omega)]
                    · rw [if_neg hw, if_neg hw]
                      exact ih (d :: rest) m (by simp; omega) (by simp; omega)
              · simp only [findAllExtAux]
                rw [if_neg hc, if_neg hc]
                simp only [List.length_cons] at h1 h2
                exact ih cs m (by omega) (by omega)

theorem findAllExt_nil : findAllExt [] = [] := rfl

theorem findAllExt_cons_ne {c : Char} (cs : List Char) (hc : ¬ c = '.') :
    findAllExt (c :: cs) = findAllExt cs := by
  show findAllExtAux ((c :: cs).length + 1) (c :: cs) = _
  rw [show (c :: cs).length + 1 = cs.length + 1 + 1 from by simp]
  simp only [findAllExtAux, if_neg hc]
  rfl

theorem findAllExt_dot_word {d : Char} (rest : List Char) (hw : wordChar d = true) :
    findAllExt ('.' :: d :: rest) =
      ('.' :: d :: rest.takeWhile wordChar) :: findAllExt (rest.dropWhile wordChar) := by
  show findAllExtAux (('.' :: d :: rest).length + 1) _ = _
  rw [show ('.' :: d :: rest).length + 1 = (rest.length + 2) + 1 from by simp]
  rw [findAllExtAux_dot_cons, if_pos hw]
  have hd := dropWhile_length_le wordChar rest
  rw [findAllExtAux_irrel (rest.length + 2) (rest.dropWhile wordChar)
        ((rest.dropWhile wordChar).length + 1) (by omega) (by omega)]
  rfl

theorem findAllExt_dot_nonword {d : Char} (rest : List Char) (hw : wordChar d = false) :
    findAllExt ('.' :: d :: rest) = findAllExt (d :: rest) := by
  show findAllExtAux (('.' :: d :: rest).length + 1) _ = _
  rw [show ('.' :: d :: rest).length + 1 = ((d :: rest).length + 1) + 1 from by simp]
  rw [findAllExtAux_dot_cons, if_neg (by simp [hw])]
  rfl

theorem findAllExt_no_dot : ∀ {s : List Char}, '.' ∉ s → findAllExt s = [] := by
  intro s
  induction s with
  | nil => intro _; rfl
  | cons c cs ih =>
      intro h
      have hc : ¬ c = '.' := fun hx => h (by simp [hx])
      rw [findAllExt_cons_ne cs hc]
      exact ih (fun hx => h (by simp [hx]))

/-- When the input ends with a dot followed by a nonempty all-word run, the
scanner's final match is exactly that run, whatever precedes it. -/
theorem findAllExt_ends {w : List Char} (hw : w ≠ [])
    (hall : ∀ c ∈ w, wordChar c = true) :
    ∀ (n : Nat) (s : List Char), s.length ≤ n →
      ∃ ts, findAllExt (s ++ '.' :: w) = ts ++ ['.' :: w] := by
  intro n
  induction n with
  | zero =>
      intro s hs
      have hs0 : s = [] := List.length_eq_zero.mp (by omega)
      subst hs0
      cases w with
      | nil => exact absurd rfl hw
      | cons d w' =>
          have hd : wordChar d = true := hall d (by simp)
          refine ⟨[], ?_⟩
          rw [List.nil_append, findAllExt_dot_word w' hd,
              takeWhile_all (fun x hx => hall x (by simp [hx])),
              dropWhile_all (fun x hx => hall x (by simp [hx])), findAllExt_nil]
          rfl
  | succ k ih =>
      intro s hs
      cases s with
      | nil => exact ih [] (by simp)
      | cons c s' =>
          by_cases hc : c = '.'
          · subst hc
            cases s' with
            | nil =>
                have hwd : wordChar '.' = false := by decide
                rw [List.cons_append, List.nil_append, findAllExt_dot_nonword _ hwd]
                exact ih [] (by simp)
            | cons d s'' =>
                by_cases hwd : wordChar d = true
                · rw [List.cons_append, List.cons_append,
                      findAllExt_dot_word (s'' ++ '.' :: w) hwd]
                  by_cases hall'' : ∀ x ∈ s'', wordChar x = true
                  · have h1 : (s'' ++ '.' :: w).dropWhile wordChar = '.' :: w := by
                      rw [dropWhile_append_of_all _ hall'',
                          dropWhile_cons_of_false _ (by decide)]
                    rw [h1]
                    obtain ⟨ts, hts⟩ := ih [] (by simp)
                    rw [List.nil_append] at hts
                    exact ⟨_ :: ts, by rw [hts]; rfl⟩
                  · have h1 : (s'' ++ '.' :: w).dropWhile wordChar =
                        s''.dropWhile wordChar ++ '.' :: w :=
                      dropWhile_append_not_all _ hall''
                    rw [h1]
                    have hlen := dropWhile_length_le wordChar s''
                    simp only [List.length_cons] at hs
                    obtain ⟨ts, hts⟩ := ih (s''.dropWhile wordChar) (by omega)
                    exact ⟨_ :: ts, by rw [hts]; rfl⟩
                · have hwd' : wordChar d = false := by simpa using hwd
                  rw [List.cons_append, List.cons_append,
                      findAllExt_dot_nonword _ hwd']
                  simp only [List.length_cons] at hs
                  exact ih (d :: s'') (by simp; omega)
          · rw [List.cons_append, findAllExt_cons_ne _ hc]
            simp only [List.length_cons] at hs
            exact ih s' (by omega)

/-- A dot immediately followed by a word character guarantees the scanner
finds at least one match. -/
theorem findAllExt_ne_nil {c : Char} (hc : wordChar c = true) :
    ∀ (n : Nat) (a b : List Char), a.length ≤ n →
      findAllExt (a ++ '.' :: c :: b) ≠ [] := by
  intro n
  induction n with
  | zero =>
      intro a b ha
      have ha0 : a = [] := List.length_eq_zero.mp (by omega)
      subst ha0
      rw [List.nil_append, findAllExt_dot_word _ hc]
      simp
  | succ k ih =>
      intro a b ha
      cases a with
      | nil => exact ih [] b (by simp)
      | cons x a' =>
          by_cases hx : x = '.'
          · subst hx
            cases a' with
            | nil =>
                rw [List.cons_append, List.nil_append,
                    findAllExt_dot_nonword _ (by decide)]
                rw [show ('.' :: c :: b) = [] ++ '.' :: c :: b from rfl]
                exact ih [] b (by simp)
            | cons d a'' =>
                by_cases hwd : wordChar d = true
                · rw [List.cons_append, List.cons_append,
                      findAllExt_dot_word _ hwd]
                  simp
                · have hwd' : wordChar d = false := by simpa using hwd
                  rw [List.cons_append, List.cons_append,
                      findAllExt_dot_nonword _ hwd']
                  simp only [List.length_cons] at ha
                  have : (d :: (a'' ++ '.' :: c :: b)) = (d :: a'') ++ '.' :: c :: b := rfl
                  rw [this]
                  exact ih (d :: a'') b (by simp; omega)
          · rw [List.cons_append, findAllExt_cons_ne _ hx]
            simp only [List.length_cons] at ha
            exact ih a' b (by omega)

/-- Every match produced by the scanner is a dot followed by a nonempty run
of word characters. -/
theorem findAllExt_tok :
    ∀ (n : Nat) (s : List Char), s.length ≤ n →
      ∀ tok ∈ findAllExt s, ∃ r, tok = '.' :: r ∧ r ≠ [] ∧
        ∀ x ∈ r, wordChar x = true := by
  intro n
  induction n with
  | zero =>
      intro s hs tok htok
      have hs0 : s = [] := List.length_eq_zero.mp (by omega)
      subst hs0
      simp [findAllExt_nil] at htok
  | succ k ih =>
      intro s hs tok htok
      cases s with
      | nil => simp [findAllExt_nil] at htok
      | cons c cs =>
          by_cases hc : c = '.'
          · subst hc
            cases cs with
            | nil => simp [show findAllExt ['.'] = [] from rfl] at htok
            | cons d rest =>
                by_cases hwd : wordChar d = true
                · rw [findAllExt_dot_word rest hwd] at htok
                  rcases List.mem_cons.mp htok with rfl | htok
                  · refine ⟨d :: rest.takeWhile wordChar, rfl, by simp, ?_⟩
                    intro x hx
                    rcases List.mem_cons.mp hx with rfl | hx
                    · exact hwd
                    · exact mem_takeWhile hx
                  · have hlen := dropWhile_length_le wordChar rest
                    simp only [List.length_cons] at hs
                    exact ih (rest.dropWhile wordChar) (by omega) tok htok
                · have hwd' : wordChar d = false := by simpa using hwd
                  rw [findAllExt_dot_nonword rest hwd'] at htok
                  simp only [List.length_cons] at hs
                  exact ih (d :: rest) (by simp; omega) tok htok
          · rw [findAllExt_cons_ne cs hc] at htok
            simp only [List.length_cons] at hs
            exact ih cs (by omega) tok htok

/-- `get_filename_extension` on a name ending in a dot followed by a
nonempty word-character run returns exactly that final segment. -/
theorem gfe_last_segment (pre : List Char) {w : List Char} (hw : w ≠ [])
    (hall : ∀ c ∈ w, wordChar c = true) :
    get_filename_extension (pre ++ '.' :: w) = some ('.' :: w) := by
  obtain ⟨ts, hts⟩ := findAllExt_ends hw hall pre.length pre (le_refl _)
  unfold get_filename_extension
  rw [hts]
  exact getLast?_append_single ts ('.' :: w)

theorem gfe_no_dot {s : List Char} (h : '.' ∉ s) :
    get_filename_extension s = none := by
  simp [get_filename_extension, findAllExt_no_dot h]

theorem gfe_is_some {a b : List Char} {c : Char} (hc : wordChar c = true) :
    ∃ e, get_filename_extension (a ++ '.' :: c :: b) = some e := by
  have hne := findAllExt_ne_nil hc a.length a b (le_refl _)
  unfold get_filename_extension
  cases hfa : findAllExt (a ++ '.' :: c :: b) with
  | nil => exact absurd hfa hne
  | cons t ts => exact ⟨(t :: ts).getLast (by simp), by simp [List.getLast?_eq_getLast]⟩

theorem gfe_some_shape {s e : List Char}
    (h : get_filename_extension s = some e) :
    ∃ r, e = '.' :: r ∧ r ≠ [] ∧ ∀ x ∈ r, wordChar x = true := by
  have hmem : e ∈ findAllExt s := getLast?_mem h
  exact findAllExt_tok s.length s (le_refl _) e hmem

theorem checkLoop_allTrue_cand {t : List Char} (ext : List Char) (hg : GoodStem t) :
    ∀ fuel i, checkLoop (fun _ => true) fuel (cand t ext i) i = none := by
  intro fuel
  induction fuel with
  | zero => intro i; rfl
  | succ f ih =>
      intro i
      simp only [checkLoop]
      rw [if_pos trivial]
      rw [renameStep_cand ext hg]
      exact ih (i + 1)

end Futility

namespace PathCleaner

/-! ### Structure of successful screengrab matches -/

theorem suffix_trans {s m r : List Char} (h1 : ∃ a, s = a ++ m)
    (h2 : ∃ b, m = b ++ r) : ∃ ab, s = ab ++ r := by
  obtain ⟨a, rfl⟩ := h1
  obtain ⟨b, rfl⟩ := h2
  exact ⟨a ++ b, by rw [List.append_assoc]⟩

theorem dropLit_decomp : ∀ {lit s r : List Char}, dropLit lit s = some r →
    s = lit ++ r := by
  intro lit
  induction lit with
  | nil =>
      intro s r h
      simp only [dropLit, Option.some_inj] at h
      simp [h]
  | cons c cs ih =>
      intro s r h
      cases s with
      | nil => simp [dropLit] at h
      | cons d s' =>
          simp only [dropLit] at h
          by_cases hc : c = d
          · rw [if_pos hc] at h
            subst hc
            rw [List.cons_append]
            exact congrArg (c :: ·) (ih h)
          · rw [if_neg hc] at h
            cases h

theorem dropLit_suffix {lit s r : List Char} (h : dropLit lit s = some r) :
    ∃ a, s = a ++ r :=
  ⟨lit, dropLit_decomp h⟩

theorem dropOneWs_suffix {s r : List Char} (h : dropOneWs s = some r) :
    ∃ a, s = a ++ r := by
  cases s with
  | nil => simp [dropOneWs] at h
  | cons c s' =>
      simp only [dropOneWs] at h
      by_cases hw : isWs c = true
      · rw [if_pos hw] at h
        have hr : s' = r := Option.some_inj.mp h
        exact ⟨[c], by rw [hr]; rfl⟩
      · rw [if_neg hw] at h
        cases h

theorem dropDigits_suffix {s r : List Char} (h : dropDigits s = some r) :
    ∃ a, s = a ++ r := by
  cases s with
  | nil => simp [dropDigits] at h
  | cons c rest =>
      simp only [dropDigits] at h
      by_cases hd : c.isDigit = true
      · rw [if_pos hd] at h
        have hr : List.dropWhile Char.isDigit rest = r := Option.some_inj.mp h
        refine ⟨c :: rest.takeWhile Char.isDigit, ?_⟩
        rw [← hr, List.cons_append, List.takeWhile_append_dropWhile]
      · rw [if_neg hd] at h
        cases h

theorem dropDigitsDashes_suffix {s r : List Char} (h : dropDigitsDashes s = some r) :
    ∃ a, s = a ++ r := by
  cases s with
  | nil => simp [dropDigitsDashes] at h
  | cons c rest =>
      simp only [dropDigitsDashes] at h
      by_cases hd : c.isDigit = true
      · rw [if_pos hd] at h
        have hr : List.dropWhile (fun x => x.isDigit || x = '-') rest = r :=
          Option.some_inj.mp h
        refine ⟨c :: rest.takeWhile (fun x => x.isDigit || x = '-'), ?_⟩
        rw [← hr, List.cons_append, List.takeWhile_append_dropWhile]
      · rw [if_neg hd] at h
        cases h

theorem dropOneMark_suffix {s r : List Char} (h : dropOneMark s = some r) :
    ∃ a, s = a ++ r := by
  rcases s with _ | ⟨w, _ | ⟨c1, _ | ⟨d, _ | ⟨c2, rest⟩⟩⟩⟩
  · simp [dropOneMark] at h
  · simp [dropOneMark] at h
  · simp [dropOneMark] at h
  · simp [dropOneMark] at h
  · simp only [dropOneMark] at h
    by_cases hcond : (isWs w && (c1 = '(' && (d.isDigit && c2 = ')'))) = true
    · rw [if_pos hcond] at h
      exact ⟨[w, c1, d, c2], by simp [← Option.some_inj.mp h]⟩
    · rw [if_neg hcond] at h
      cases h

theorem dropMarksAux_suffix : ∀ (fuel : Nat) (s : List Char),
    ∃ a, s = a ++ dropMarksAux fuel s := by
  intro fuel
  induction fuel with
  | zero => intro s; exact ⟨[], rfl⟩
  | succ f ih =>
      intro s
      rcases h1 : dropOneMark s with _ | r
      · simp only [dropMarksAux, h1]
        exact ⟨[], rfl⟩
      · simp only [dropMarksAux, h1]
        exact suffix_trans (dropOneMark_suffix h1) (ih r)

theorem dropMarks_suffix (s : List Char) : ∃ a, s = a ++ dropMarks s :=
  dropMarksAux_suffix s.length s

theorem dropTime_suffix {s r : List Char} (h : dropTime s = some r) :
    ∃ a, s = a ++ r := by
  simp only [dropTime, Option.bind_eq_some] at h
  obtain ⟨r1, h1, r2, h2, r3, h3, r4, h4, h5⟩ := h
  exact suffix_trans (dropDigits_suffix h1)
    (suffix_trans (dropLit_suffix h2)
      (suffix_trans (dropDigits_suffix h3)
        (suffix_trans (dropLit_suffix h4) (dropDigits_suffix h5))))

theorem dropHead_suffix {s r : List Char} (h : dropHead s = some r) :
    ∃ a, s = a ++ r := by
  unfold dropHead at h
  split at h
  · rename_i r1 heq
    rw [← Option.some_inj.mp h]
    exact dropLit_suffix heq
  · simp only [Option.bind_eq_some] at h
    obtain ⟨y, ⟨x, hx, hy⟩, hrec⟩ := h
    exact suffix_trans (dropLit_suffix hx)
      (suffix_trans (dropOneWs_suffix hy) (dropLit_suffix hrec))

theorem grabTail_suffix {s r : List Char} (h : grabTail s = some r) :
    ∃ a, s = a ++ r := by
  simp only [grabTail, Option.bind_eq_some, Option.some_inj] at h
  obtain ⟨r1, h1, r2, h2, r3, h3, r4, h4, r5, h5, r6, h6, r7, h7, h8⟩ := h
  subst h8
  exact suffix_trans (dropHead_suffix h1)
    (suffix_trans (dropOneWs_suffix h2)
      (suffix_trans (dropDigitsDashes_suffix h3)
        (suffix_trans (dropOneWs_suffix h4)
          (suffix_trans (dropLit_suffix h5)
            (suffix_trans (dropOneWs_suffix h6)
              (suffix_trans (dropTime_suffix h7) (dropMarks_suffix r7)))))))

/-- A successful positional match exposes a dot followed by a word character
somewhere in the name. -/
theorem matchGrabAt_decomp {s : List Char} (h : matchGrabAt s = true) :
    ∃ a b c, s = a ++ '.' :: c :: b ∧ Futility.wordChar c = true := by
  unfold matchGrabAt at h
  split at h
  · rename_i r heq
    have hsfx := grabTail_suffix heq
    unfold tailExt at h
    rcases Bool.or_eq_true_iff.mp h with h1 | h1
    · obtain ⟨r9, h2⟩ := Option.isSome_iff_exists.mp h1
      have hr : r = '.' :: 'm' :: 'o' :: 'v' :: r9 := dropLit_decomp h2
      obtain ⟨a, ha⟩ := hsfx
      exact ⟨a, 'o' :: 'v' :: r9, 'm', by rw [ha, hr], by decide⟩
    · obtain ⟨r9, h2⟩ := Option.isSome_iff_exists.mp h1
      have hr : r = '.' :: 'p' :: 'n' :: 'g' :: r9 := dropLit_decomp h2
      obtain ⟨a, ha⟩ := hsfx
      exact ⟨a, 'n' :: 'g' :: r9, 'p', by rw [ha, hr], by decide⟩
  · cases h

/-- A successful search exposes a dot followed by a word character somewhere
in the name. -/
theorem grabSearch_decomp : ∀ {s : List Char}, grabSearch s = true →
    ∃ a b c, s = a ++ '.' :: c :: b ∧ Futility.wordChar c = true := by
  intro s
  induction s with
  | nil => intro h; exact matchGrabAt_decomp h
  | cons c t ih =>
      intro h
      rcases Bool.or_eq_true_iff.mp h with h | h
      · exact matchGrabAt_decomp h
      · obtain ⟨a, b, x, hab, hx⟩ := ih h
        exact ⟨c :: a, b, x, by rw [hab, List.cons_append], hx⟩

/-! ### The screenshot pass moves every matching file -/


theorem screengrab_precond (now : List Char) (r' : List Char) :
    ∃ fh ext t, splitFirstDot (screengrabName now ('.' :: r')) = some (fh, ext) ∧
      trimStem fh = some t := by
  have hdot : '.' ∈ screengrabName now ('.' :: r') := by
    simp [screengrabName]
  rcases hsp : splitFirstDot (screengrabName now ('.' :: r')) with _ | ⟨fh, ext⟩
  · rw [splitFirstDot_eq_none_iff] at hsp
    exact absurd hdot hsp
  · obtain ⟨heq, hnd⟩ := splitFirstDot_eq_some hsp
    have hS : screengrabName now ('.' :: r') =
        'S' :: (("creengrab_".data) ++ now ++ ("_captured".data) ++ '.' :: r') := rfl
    have hfh : 'S' ∈ fh := by
      cases fh with
      | nil =>
          rw [hS, List.nil_append] at heq
          exact absurd (List.cons.inj heq).1 (by decide)
      | cons c fh' =>
          rw [hS, List.cons_append] at heq
          rw [← (List.cons.inj heq).1]
          exact List.mem_cons_self 'S' fh'
    rcases htr : trimStem fh with _ | t
    · rw [trimStem_eq_none_iff] at htr
      exact absurd (htr 'S' hfh) (by decide)
    · exact ⟨fh, ext, t, rfl, htr⟩

theorem screengrab_checked (now : List Char) (dir : List (List Char))
    {e r' : List Char} (he : e = '.' :: r') :
    ∃ checked, check_filename (screengrabName now e) dir = some (.ok checked) ∧
      (checked = screengrabName now e ∨
       ∃ fh ext t j, splitFirstDot (screengrabName now e) = some (fh, ext) ∧
         trimStem fh = some t ∧ 1 ≤ j ∧ checked = cand t ext j) := by
  subst he
  obtain ⟨fh, ext, t, hsp, htr⟩ := screengrab_precond now r'
  by_cases hmem : screengrabName now ('.' :: r') ∈ dir
  · obtain ⟨j, hj1, _, _, hrun⟩ := check_filename_collision hsp htr hmem
    refine ⟨cand t ext j, hrun, Or.inr ?_⟩
    exact ⟨fh, ext, t, j, hsp, htr, hj1, rfl⟩
  · exact ⟨_, check_filename_not_mem hmem, .inl rfl⟩

theorem screenStep_processes {st : DirState} {file : List Char} (now : List Char)
    (hmem : file ∈ st.rootFiles) (hmatch : grabSearch file = true) :
    ∃ checked,
      screenStep now (fun _ _ => true) st file =
        (DirState.mk (st.rootFiles.erase file)
          (fun d => if d = ("Screenshots".data)
                    then st.sub ("Screenshots".data) ++ [checked] else st.sub d),
         none) ∧
      movedName now file checked := by
  obtain ⟨a, b, c, hdecomp, hwc⟩ := grabSearch_decomp hmatch
  have hgfe : ∃ e, get_filename_extension file = some e := by
    rw [hdecomp]; exact gfe_is_some hwc
  obtain ⟨e, hge⟩ := hgfe
  obtain ⟨r', hre, _, _⟩ := gfe_some_shape hge
  have hext : extRepr (get_filename_extension file) = e := by rw [hge]; rfl
  obtain ⟨checked, hcf, hshape⟩ :=
    screengrab_checked now (st.sub ("Screenshots".data)) hre
  refine ⟨checked, ?_, ?_⟩
  · simp only [screenStep]
    rw [if_pos (by simp [hmem, hmatch])]
    rw [hext, hcf]
    rfl
  · unfold movedName
    rw [hext]
    exact hshape

theorem screenStep_ok (now : List Char) (st : DirState) (g : List Char) :
    ∃ st', screenStep now (fun _ _ => true) st g = (st', none) ∧
      st'.rootFiles ⊆ st.rootFiles ∧
      (∀ x ∈ st.rootFiles, x ≠ g → x ∈ st'.rootFiles) ∧
      (∀ d, ∃ add, st'.sub d = st.sub d ++ add) ∧
      (st.rootFiles.Nodup → st'.rootFiles.Nodup) := by
  by_cases hcond : g ∈ st.rootFiles ∧ grabSearch g = true
  · obtain ⟨checked, hstep, _⟩ := screenStep_processes now hcond.1 hcond.2
    refine ⟨_, hstep, ?_, ?_, ?_, ?_⟩
    · intro x hx
      exact List.mem_of_mem_erase hx
    · intro x hx hne
      exact (List.mem_erase_of_ne hne).mpr hx
    · intro d
      by_cases hd : d = ("Screenshots".data)
      · exact ⟨[checked], by simp [hd]⟩
      · exact ⟨[], by simp [hd]⟩
    · exact fun h => h.erase g
  · have hcond' : (decide (g ∈ st.rootFiles) && grabSearch g) = false := by
      cases hg : grabSearch g
      · simp
      · have hnm : g ∉ st.rootFiles := fun hm => hcond ⟨hm, hg⟩
        simp [hnm]
    refine ⟨st, ?_, fun x hx => hx, fun x hx _ => hx, fun d => ⟨[], by simp⟩, fun h => h⟩
    simp only [screenStep]
    rw [if_neg (by simp [hcond'])]

theorem runSteps_ok (now : List Char) :
    ∀ (L : List (List Char)) (st : DirState),
      (runSteps (screenStep now (fun _ _ => true)) st L).2 = none ∧
      (runSteps (screenStep now (fun _ _ => true)) st L).1.rootFiles ⊆ st.rootFiles ∧
      (∀ d, ∃ add,
        (runSteps (screenStep now (fun _ _ => true)) st L).1.sub d = st.sub d ++ add) ∧
      (st.rootFiles.Nodup →
        (runSteps (screenStep now (fun _ _ => true)) st L).1.rootFiles.Nodup) := by
  intro L
  induction L with
  | nil =>
      intro st
      exact ⟨rfl, fun x hx => hx, fun d => ⟨[], by simp [runSteps]⟩, fun h => h⟩
  | cons g L' ih =>
      intro st
      obtain ⟨st1, hstep, hsub, hkeep, hgrow, hnd⟩ := screenStep_ok now st g
      have hrun : runSteps (screenStep now (fun _ _ => true)) st (g :: L') =
          runSteps (screenStep now (fun _ _ => true)) st1 L' := by
        simp only [runSteps, hstep]
      rw [hrun]
      obtain ⟨e1, s1, g1, n1⟩ := ih st1
      refine ⟨e1, s1.trans hsub, ?_, fun h => n1 (hnd h)⟩
      intro d
      obtain ⟨a1, ha1⟩ := hgrow d
      obtain ⟨a2, ha2⟩ := g1 d
      exact ⟨a1 ++ a2, by rw [ha2, ha1, List.append_assoc]⟩

theorem runSteps_moves (now : List Char) :
    ∀ (L : List (List Char)) (st : DirState) (file : List Char),
      st.rootFiles.Nodup → file ∈ L → file ∈ st.rootFiles → grabSearch file = true →
      (runSteps (screenStep now (fun _ _ => true)) st L).2 = none ∧
      file ∉ (runSteps (screenStep now (fun _ _ => true)) st L).1.rootFiles ∧
      ∃ nm, nm ∈ (runSteps (screenStep now (fun _ _ => true)) st L).1.sub
          ("Screenshots".data) ∧ movedName now file nm := by
  intro L
  induction L with
  | nil =>
      intro st file _ hfL _ _
      exact absurd hfL (List.not_mem_nil file)
  | cons g L' ih =>
      intro st file hnd hfL hfroot hmatch
      by_cases hg : g = file
      · subst hg
        obtain ⟨checked, hstep, hshape⟩ := screenStep_processes now hfroot hmatch
        have hrun : runSteps (screenStep now (fun _ _ => true)) st (g :: L') =
            runSteps (screenStep now (fun _ _ => true))
              (DirState.mk (st.rootFiles.erase g)
                (fun d => if d = ("Screenshots".data)
                          then st.sub ("Screenshots".data) ++ [checked]
                          else st.sub d)) L' := by
          simp only [runSteps, hstep]
        rw [hrun]
        obtain ⟨e1, s1, g1, _⟩ := runSteps_ok now L' _
        refine ⟨e1, ?_, checked, ?_, hshape⟩
        · intro hmemf
          have hmem1 := s1 hmemf
          simp only at hmem1
          rw [List.Nodup.mem_erase_iff hnd] at hmem1
          exact hmem1.1 rfl
        · obtain ⟨add, hadd⟩ := g1 ("Screenshots".data)
          rw [hadd]
          simp
      · obtain ⟨st1, hstep, _, hkeep, hgrow, hnd1⟩ := screenStep_ok now st g
        have hrun : runSteps (screenStep now (fun _ _ => true)) st (g :: L') =
            runSteps (screenStep now (fun _ _ => true)) st1 L' := by
          simp only [runSteps, hstep]
        rw [hrun]
        have hfL' : file ∈ L' := by
          rcases List.mem_cons.mp hfL with h | h
          · exact absurd h.symm hg
          · exact h
        exact ih st1 file (hnd1 hnd) hfL'
          (hkeep file hfroot (fun he => hg he.symm)) hmatch

end PathCleaner




/-- C1 (counterexample): the claim's hypotheses hold — the desired name
`report_2.txt` exists in the target directory and `report_3.txt` does not —
yet `check_filename` returns `report_1.txt`, not `report_3.txt`: after
stripping the suffix the loop restarts its counter at 1. -/
theorem C1_counterexample :
    check_filename ("report_2.txt".data) [("report_2.txt".data)] =
      some (.ok ("report_1.txt".data)) ∧
    ("report_2.txt".data) ∈ [("report_2.txt".data)] ∧
    ("report_3.txt".data) ∉ [("report_2.txt".data)] ∧
    ("report_1.txt".data) ≠ ("report_3.txt".data) :=
  ⟨by decide, by decide, by decide, by decide⟩

/-- C1 (amended): when the desired name is `report_2.txt` and `report_1.txt`
and `report_2.txt` both exist in the target directory while `report_3.txt`
does not, the resolver strips the trailing numeric suffix to obtain base
`report` and returns `report_3.txt` (not `report_2_1.txt`). -/
theorem C1_amended (dir : List (List Char))
    (h2 : ("report_2.txt".data) ∈ dir) (h1 : ("report_1.txt".data) ∈ dir)
    (h3 : ("report_3.txt".data) ∉ dir) :
    check_filename ("report_2.txt".data) dir = some (.ok ("report_3.txt".data)) := by
  have hs : splitFirstDot ("report_2.txt".data) =
      some ("report_2".data, "txt".data) := by decide
  have htk : trimStem ("report_2".data) = some ("report".data) := by decide
  obtain ⟨j, hj1, hjfree, hjmin, hrun⟩ := check_filename_collision hs htk h2
  have e1 : cand ("report".data) ("txt".data) 1 = ("report_1.txt".data) := by decide
  have e2 : cand ("report".data) ("txt".data) 2 = ("report_2.txt".data) := by decide
  have e3 : cand ("report".data) ("txt".data) 3 = ("report_3.txt".data) := by decide
  have hj : j = 3 := by
    rcases Nat.lt_or_ge j 3 with hlt | hge
    · interval_cases j
      · rw [e1] at hjfree; exact absurd h1 hjfree
      · rw [e2] at hjfree; exact absurd h2 hjfree
    · rcases Nat.eq_or_lt_of_le hge with heq | hlt3
      · exact heq.symm
      · exfalso
        have hmem3 := hjmin 3 (by omega) hlt3
        rw [e3] at hmem3
        exact h3 hmem3
  subst hj
  rw [e3] at hrun
  exact hrun

/-- Witness for C1: the amended claim evaluated on the three-name directory
state. -/
theorem C1_witness :
    check_filename ("report_2.txt".data)
      [("report_1.txt".data), ("report_2.txt".data)] =
      some (.ok ("report_3.txt".data)) :=
  C1_amended [("report_1.txt".data), ("report_2.txt".data)]
    (by decide) (by decide) (by decide)

/-- C2 (counterexample): `file2.txt` collides; the name with `_1` inserted
before the extension, `file2_1.txt`, is free, yet the resolver returns
`file_1.txt` — the trailing digit of the stem is stripped first. -/
theorem C2_counterexample :
    check_filename ("file2.txt".data) [("file2.txt".data)] =
      some (.ok ("file_1.txt".data)) ∧
    ("file2_1.txt".data) ∉ [("file2.txt".data)] ∧
    ("file_1.txt".data) ≠ ("file2_1.txt".data) :=
  ⟨by decide, by decide, by decide⟩

/-- C2 (amended): for every desired name that contains a dot and whose
pre-dot stem trims (dropping trailing digits, underscores, parentheses, plus
and dollar characters) to a nonempty base `t`, if the name collides then the
resolver returns `t_j.ext` for the least `j ≥ 1` whose candidate is free —
the suffixes tried are strictly increasing from 1 with no gaps. -/
theorem C2_amended {file fh ext t : List Char} {dir : List (List Char)}
    (hs : splitFirstDot file = some (fh, ext)) (htk : trimStem fh = some t)
    (hmem : file ∈ dir) :
    ∃ j, 1 ≤ j ∧ cand t ext j ∉ dir ∧
      (∀ k, 1 ≤ k → k < j → cand t ext k ∈ dir) ∧
      check_filename file dir = some (.ok (cand t ext j)) :=
  check_filename_collision hs htk hmem

/-- Witness for C2: the amended claim evaluated on a colliding `a.png`. -/
theorem C2_witness :
    ∃ j, 1 ≤ j ∧ cand ("a".data) ("png".data) j ∉ [("a.png".data)] ∧
      (∀ k, 1 ≤ k → k < j → cand ("a".data) ("png".data) k ∈ [("a.png".data)]) ∧
      check_filename ("a.png".data) [("a.png".data)] =
        some (.ok (cand ("a".data) ("png".data) j)) :=
  @C2_amended ("a.png".data) ("a".data) ("png".data) ("a".data) [("a.png".data)]
    (by decide) (by decide) (by decide)

/-- C3: whenever the desired name does not occur in the target directory —
in particular when the directory does not exist, i.e. lists no files at all —
`check_filename` returns the desired name unchanged. -/
theorem C3_no_collision {file : List Char} {dir : List (List Char)}
    (h : file ∉ dir) : check_filename file dir = some (.ok file) :=
  check_filename_not_mem h

/-- Witness for C3: a nonexistent (empty) directory and a non-colliding
name in a nonempty directory. -/
theorem C3_witness :
    check_filename ("a.png".data) [] = some (.ok ("a.png".data)) ∧
    check_filename ("b.txt".data) [("a.png".data)] = some (.ok ("b.txt".data)) :=
  ⟨C3_no_collision (by decide), C3_no_collision (by decide)⟩

/-- C4: the `while True` loop of `check_filename` has no defensive bound and
no fatal-for-that-file report: against an existence oracle that answers
`true` for every candidate (for example a directory that is concurrently
repopulated), the loop never finishes — for every amount of fuel and every
starting counter it is still running. -/
theorem C4_loop_unbounded :
    ∀ fuel i, checkLoop (fun _ => true) fuel ("report.txt".data) i = none := by
  intro fuel i
  cases fuel with
  | zero => rfl
  | succ f =>
      have hs : splitFirstDot ("report.txt".data) =
          some ("report".data, "txt".data) := by decide
      have htk : trimStem ("report".data) = some ("report".data) := by decide
      have hg : GoodStem ("report".data) :=
        ⟨by decide, "repor".data, 't', by decide, by decide⟩
      simp only [checkLoop]
      rw [if_pos trivial]
      have h1 : renameStep ("report.txt".data) (i + 1) =
          .ok (cand ("report".data) ("txt".data) (i + 1)) := by
        simp [renameStep, hs, htk, cand]
      rw [h1]
      exact checkLoop_allTrue_cand ("txt".data) hg f (i + 1)

/-- C5 (counterexample): `a.b c` contains a dot, but the resolver returns
`.b` — the last dot-prefixed word-character token — rather than `.b c`, the
substring from the last dot to the end of the filename. -/
theorem C5_counterexample :
    '.' ∈ ("a.b c".data) ∧
    get_filename_extension ("a.b c".data) = some (".b".data) ∧
    (".b".data) ≠ (".b c".data) :=
  ⟨by decide, by decide, by decide⟩

/-- C5 (amended): the resolver returns the last dot-prefixed
word-character token.  When the segment after the last dot is a nonempty run
of word characters reaching the end of the name, that token is exactly the
substring from the last dot to the end (including the leading dot); a
filename containing no dot yields the none value. -/
theorem C5_amended :
    (∀ (pre w : List Char), w ≠ [] → (∀ c ∈ w, wordChar c = true) →
        get_filename_extension (pre ++ '.' :: w) = some ('.' :: w)) ∧
    (∀ s : List Char, '.' ∉ s → get_filename_extension s = none) :=
  ⟨fun pre _ hw hall => gfe_last_segment pre hw hall,
   fun _ h => gfe_no_dot h⟩

/-- Witness for C5: `archive.tar.gz` yields `.gz`; `nodot` yields none. -/
theorem C5_witness :
    get_filename_extension (("archive.tar".data) ++ '.' :: ("gz".data)) =
      some ('.' :: ("gz".data)) ∧
    get_filename_extension ("nodot".data) = none :=
  ⟨C5_amended.1 ("archive.tar".data) ("gz".data) (by decide) (by decide),
   C5_amended.2 ("nodot".data) (by decide)⟩

/-- C6: one pass of `sort_by_filetype` with table
`{".png": "Images", ".txt": "Docs", ".tmp": "Other"}` over a root holding
`a.png`, `b.txt`, `c.tmp`, `d.unknown` completes without error, moves
`a.png` to `Images/a.png` and `b.txt` to `Docs/b.txt`, and leaves `c.tmp`
(mapped to the sentinel `Other`) and `d.unknown` (extension absent from the
table) untouched in the root. -/
theorem C6_scenario :
    (sort_by_filetype scenarioTable (fun _ _ => true) scenarioRoot).2 = none ∧
    (sort_by_filetype scenarioTable (fun _ _ => true) scenarioRoot).1.rootFiles =
      [("c.tmp".data), ("d.unknown".data)] ∧
    (sort_by_filetype scenarioTable (fun _ _ => true) scenarioRoot).1.sub
      ("Images".data) = [("a.png".data)] ∧
    (sort_by_filetype scenarioTable (fun _ _ => true) scenarioRoot).1.sub
      ("Docs".data) = [("b.txt".data)] :=
  ⟨by decide, by decide, by decide, by decide⟩

/-- C7: when the move of `a.png` fails, the uncaught exception aborts the
pass: the pass ends with the move failure, `a.png` stays in the root, and
`b.txt` — still present and classifiable — is never processed (`Docs`
remains empty).  The failure is not confined to the failing file. -/
theorem C7_move_failure_aborts :
    (sort_by_filetype scenarioTable
        (fun src _ => decide (src ≠ ("a.png".data))) twoFileRoot).2 =
      some (.moveFail ("a.png".data) ("a.png".data)) ∧
    (sort_by_filetype scenarioTable
        (fun src _ => decide (src ≠ ("a.png".data))) twoFileRoot).1.rootFiles =
      [("a.png".data), ("b.txt".data)] ∧
    (sort_by_filetype scenarioTable
        (fun src _ => decide (src ≠ ("a.png".data))) twoFileRoot).1.sub
      ("Docs".data) = [] :=
  ⟨by decide, by decide, by decide⟩

/-- C8 (counterexample): the matching screenshot is moved, but because
`Screenshots` already contains `Screengrab_<now>_captured.png`, it lands
under the collision-suffixed name `Screengrab_<now>_captured_1.png`, not
under the name the claim mandates. -/
theorem C8_counterexample :
    grabSearch ("Screenshot 2023-01-01 at 10.30.00.png".data) = true ∧
    screengrabName ("12-10-2025_14-30-00".data)
        (extRepr (get_filename_extension
          ("Screenshot 2023-01-01 at 10.30.00.png".data))) =
      ("Screengrab_12-10-2025_14-30-00_captured.png".data) ∧
    (sort_screenshots ("12-10-2025_14-30-00".data) (fun _ _ => true) grabRoot).1.sub
        ("Screenshots".data) =
      [("Screengrab_12-10-2025_14-30-00_captured.png".data),
       ("Screengrab_12-10-2025_14-30-00_captured_1.png".data)] ∧
    (sort_screenshots ("12-10-2025_14-30-00".data) (fun _ _ => true) grabRoot).1.rootFiles
      = [] ∧
    ("Screengrab_12-10-2025_14-30-00_captured_1.png".data) ≠
      ("Screengrab_12-10-2025_14-30-00_captured.png".data) :=
  ⟨by decide, by decide, by decide, by decide, by decide⟩

/-- C8 (amended): in a duplicate-free root, every file matching the
screenshot pattern is moved by one pass of `sort_screenshots` (all moves
succeeding): the pass finishes without error, the original name is absent
from the root afterwards, and `Screenshots` gains a name that is either
`Screengrab_<now>_captured<ext>` itself or, when that candidate collides,
the candidate with a `_n` counter (n ≥ 1) inserted before its extension. -/
theorem C8_amended (now : List Char) (st : DirState) (file : List Char)
    (hnd : st.rootFiles.Nodup) (hmem : file ∈ st.rootFiles)
    (hmatch : grabSearch file = true) :
    (sort_screenshots now (fun _ _ => true) st).2 = none ∧
    file ∉ (sort_screenshots now (fun _ _ => true) st).1.rootFiles ∧
    ∃ nm, nm ∈ (sort_screenshots now (fun _ _ => true) st).1.sub
        ("Screenshots".data) ∧ movedName now file nm := by
  unfold sort_screenshots
  exact runSteps_moves now st.rootFiles st file hnd hmem hmem hmatch

/-- Witness for C8: the amended claim evaluated on a root holding one
screenshot and an empty `Screenshots` subfolder. -/
theorem C8_witness :
    (sort_screenshots ("01-01-2024_00-00-00".data) (fun _ _ => true)
        singleShotRoot).2 = none ∧
    ("Screenshot 2023-01-01 at 10.30.00.png".data) ∉
      (sort_screenshots ("01-01-2024_00-00-00".data) (fun _ _ => true)
        singleShotRoot).1.rootFiles ∧
    ∃ nm, nm ∈ (sort_screenshots ("01-01-2024_00-00-00".data) (fun _ _ => true)
        singleShotRoot).1.sub ("Screenshots".data) ∧
      movedName ("01-01-2024_00-00-00".data)
        ("Screenshot 2023-01-01 at 10.30.00.png".data) nm :=
  C8_amended ("01-01-2024_00-00-00".data) singleShotRoot
    ("Screenshot 2023-01-01 at 10.30.00.png".data)
    (by decide) (by decide) (by decide)

/-- C9: `on_modified` checks `os.path.isdir` against the process working
directory instead of the watched root.  In a state where the root holds a
non-directory entry named `Screenshots`, no directory `Screenshots` exists
under the root, and the CWD happens to contain a directory of that name, the
handler concludes the subfolders are present, skips `make_subdirectories`,
and runs the cleanup with the required subfolder missing from the root's
directories.  In this same state even a direct `make_subdirectories` call
could not establish the invariant: `os.mkdir` on the occupied path raises
`FileExistsError`. -/
theorem C9_wrong_directory_check :
    on_modified_dirs watchView [("Screenshots".data)] = .ok [] ∧
    ("Screenshots".data) ∉ watchView.rootDirs ∧
    make_subdirectories watchView.rootEntries watchView.rootDirs
        [("Screenshots".data)] =
      .error (.fileExistsError ("Screenshots".data)) :=
  ⟨by decide, by decide, by decide⟩

/-- C10 (counterexample): the colliding name `(.png` contains a dot and its
stem `(` contains a character that is neither a digit nor an underscore, so
the claim's precondition holds; yet `check_filename` raises AttributeError
instead of returning a name — the stem-trimming regex class also contains
parentheses, plus and dollar characters. -/
theorem C10_counterexample :
    splitFirstDot ("(.png".data) = some (("(".data), ("png".data)) ∧
    (¬ ('('.isDigit = true ∨ '(' = '_')) ∧
    check_filename ("(.png".data) [("(.png".data)] =
      some (.error .attributeError) :=
  ⟨by decide, by decide, by decide⟩

/-- C10 (amended): on a collision, `check_filename` raises IndexError when the
checked name has no dot, and AttributeError when every character of its
pre-dot stem lies in the class digits, underscore, parentheses, plus, dollar;
when the name contains a dot and its stem has at least one character outside
that class, it always returns a name. -/
theorem C10_amended :
    (∀ (file : List Char) (dir : List (List Char)), file ∈ dir →
        splitFirstDot file = none →
        check_filename file dir = some (.error .indexError)) ∧
    (∀ (file fh ext : List Char) (dir : List (List Char)), file ∈ dir →
        splitFirstDot file = some (fh, ext) → trimStem fh = none →
        check_filename file dir = some (.error .attributeError)) ∧
    (∀ (file fh ext t : List Char) (dir : List (List Char)),
        splitFirstDot file = some (fh, ext) → trimStem fh = some t →
        ∃ nm, check_filename file dir = some (.ok nm)) := by
  refine ⟨?_, ?_, ?_⟩
  · intro file dir hmem hsplit
    show checkLoop _ (dir.length + 1 + 1) file 0 = _
    simp only [checkLoop]
    rw [if_pos (by simpa using hmem)]
    simp [renameStep, hsplit]
  · intro file fh ext dir hmem hsplit htrim
    show checkLoop _ (dir.length + 1 + 1) file 0 = _
    simp only [checkLoop]
    rw [if_pos (by simpa using hmem)]
    simp [renameStep, hsplit, htrim]
  · intro file fh ext t dir hsplit htrim
    by_cases hmem : file ∈ dir
    · obtain ⟨j, _, _, _, hrun⟩ := check_filename_collision hsplit htrim hmem
      exact ⟨_, hrun⟩
    · exact ⟨file, check_filename_not_mem hmem⟩

/-- Witness for C10: a dot-less colliding name raises IndexError, an
all-digit stem raises AttributeError, and a good stem always yields a name. -/
theorem C10_witness :
    check_filename ("nodot".data) [("nodot".data)] = some (.error .indexError) ∧
    check_filename ("2023.png".data) [("2023.png".data)] =
      some (.error .attributeError) ∧
    (∃ nm, check_filename ("a.png".data) [("b.png".data), ("a.png".data)] =
      some (.ok nm)) :=
  ⟨C10_amended.1 ("nodot".data) [("nodot".data)] (by decide) (by decide),
   C10_amended.2.1 ("2023.png".data) ("2023".data) ("png".data)
     [("2023.png".data)] (by decide) (by decide) (by decide),
   C10_amended.2.2 ("a.png".data) ("a".data) ("png".data) ("a".data)
     [("b.png".data), ("a.png".data)] (by decide) (by decide)⟩
